import Mathlib

/-!
Verification development for the Deliverect order/item import pipeline
(`01_import_deliverect.py` together with `shared_functions.py`).

The pandas dataframe transformations are embedded shallowly:

* a dataframe is a `List` of records;
* `NaN`-able string columns are `Option String` (`none` is pandas `NaN`,
  which propagates through string concatenation and is treated as equal
  to itself by `drop_duplicates`/`groupby` key handling);
* monetary columns are `ℚ` (the reconciliation arithmetic, exactly);
* `sort_values` on several columns is pandas `lexsort`, a stable sort,
  embedded as `List.insertionSort` over index-annotated rows, the index
  making the comparison a total antisymmetric order (= the stable sort);
* date and time-of-day columns are kept as ISO-formatted strings, whose
  lexicographic order agrees with the chronological order pandas uses.
-/

/-! ### String literals used by the pipeline -/

def hashStr : String := "#"
def sepStr : String := " - "
def nanStr : String := "nan"
def hashNanStr : String := "#nan"
def beastStr : String := "beast"
def birriaBeastStr : String := "Birria & the Beast"
def birdieBirdieStr : String := "Birdie Birdie"
def birriaStr : String := "Birria"
def birdieStr : String := "Birdie"
def ordersTagStr : String := "Orders"
def balancingNameStr : String := "Balancing Item"
def balancingPLUStr : String := "x-xx-xxx-x"

/-! ### Case-insensitive substring test (`Series.str.contains('beast', case=False)`) -/

/-- `leadsList pat l` is true when `pat` is an initial segment of `l`. -/
def leadsList : List Char → List Char → Bool
  | [], _ => true
  | _ :: _, [] => false
  | a :: as, b :: bs => a == b && leadsList as bs

/-- `hasSub pat l` is true when `pat` occurs contiguously inside `l`. -/
def hasSub (pat : List Char) : List Char → Bool
  | [] => leadsList pat []
  | c :: cs => leadsList pat (c :: cs) || hasSub pat cs

/-- Case-insensitive substring containment of `"beast"`, the test used by
`str.contains('beast', case=False)` (ASCII pattern, so lowercasing models it). -/
def beastCI (s : String) : Bool :=
  hasSub beastStr.toList (s.toList.map Char.toLower)

/-! ### Brand normalization (`process_deliverect_shared_data`, lines 28-35) -/

/-- Line 28: `x.split(',')[0] if isinstance(x, str) and ',' in x else x` —
keep only the text before the first comma of a (non-null) brand. -/
def splitCommaBrand : Option String → Option String
  | none => none
  | some s =>
      if s.toList.contains ',' then some (String.mk (s.toList.takeWhile (fun c => c != ',')))
      else some s

/-- Line 32: `np.where(Brand.isnull(), np.where(Location.str.contains('beast', case=False),
'Birria & the Beast', 'Birdie Birdie'), Brand)`.  A null brand is inferred from the
location; `str.contains` on a null location yields `NaN`, which `np.where` treats as
truthy (non-zero float), selecting the `'Birria & the Beast'` arm. -/
def inferNullBrand (b : Option String) (loc : Option String) : String :=
  match b with
  | some s => s
  | none =>
      match loc with
      | none => birriaBeastStr
      | some t => if beastCI t then birriaBeastStr else birdieBirdieStr

/-- Line 35: `np.where(Brand.str.contains('beast', case=False), 'Birria', 'Birdie')` —
the final two-value collapse of the brand column. -/
def collapseBrand (s : String) : String :=
  if beastCI s then birriaStr else birdieStr

/-- Lines 28-35 composed: the complete brand normalization of
`process_deliverect_shared_data` applied to one row's raw brand and raw location. -/
def normalizeBrand (b : Option String) (loc : Option String) : String :=
  collapseBrand (inferNullBrand (splitCommaBrand b) loc)

/-! ### Location cleaning (`shared_functions.clean_location_names`) and PrimaryKey -/

/-- `str.replace('ö','o').str.replace('ü','u')` on the location column
(single-character replacements, so a character map). -/
def replaceUmlauts (s : String) : String :=
  String.mk (s.toList.map (fun c => if c = 'ö' then 'o' else if c = 'ü' then 'u' else c))

/-- Exact-match lookup in the external `Full Rx List, with Cleaned Names` table
(first matching row of the left merge on `Location`). -/
def lookupCleaned (table : List (String × String)) (s : String) : Option String :=
  (table.find? (fun p => p.1 == s)).map (fun p => p.2)

/-- `clean_location_names` applied to one row's location: umlaut replacement, then
the left merge against the cleaned-names table; the merged `Cleaned Name` column
*replaces* `Location`, so an unmapped (or null) location becomes `NaN`. -/
def clean_location_names (table : List (String × String)) (loc : Option String) : Option String :=
  loc.bind (fun s => lookupCleaned table (replaceUmlauts s))

/-- Line 50: `PrimaryKey = OrderID + ' - ' + Location + ' - ' + OrderPlacedDate`.
String concatenation with a `NaN` location yields `NaN` in pandas, hence `Option`. -/
def mkPrimaryKey (oid : String) (loc : Option String) (date : String) : Option String :=
  loc.map (fun l => oid ++ sepStr ++ l ++ sepStr ++ date)

/-- Line 16: `OrderID = '#' + OrderID.astype(str)`; `str(NaN)` is the literal `"nan"`. -/
def mkOrderID : Option String → String
  | some s => hashStr ++ s
  | none => hashStr ++ nanStr

/-! ### Order records and the Order Deduplicator (`process_deliverect_remove_duplicates`) -/

/-- An order-level row at the point where `process_deliverect_remove_duplicates`
runs (after `process_deliverect_shared_data` has built `PrimaryKey` and
normalized `OrderStatus`).  Only the columns that function reads are modelled. -/
structure OrderRec where
  OrderID : String
  PrimaryKey : Option String
  OrderStatus : String
deriving DecidableEq, Repr

/-- The `custom_order` dict of lines 55-56: the fixed status-precedence table. -/
def custom_order : String → Option Nat
  | "Delivered" => some 0
  | "Auto Finalized" => some 1
  | "In Delivery" => some 2
  | "Ready For Pickup" => some 3
  | "Prepared" => some 4
  | "Preparing" => some 5
  | "Accepted" => some 6
  | "Deliverect Parsed" => some 7
  | "New" => some 8
  | "Scheduled" => some 9
  | "Cancel" => some 10
  | "Canceled" => some 11
  | "Failed Resolved" => some 12
  | "Failed" => some 13
  | "Delivery Cancelled" => some 14
  | "Manual Retry" => some 15
  | "Failed Cancel" => some 16
  | _ => none

/-- `pd.Categorical(..., categories=custom_order.keys(), ordered=True)` maps a status
outside the table to `NaN`, and `sort_values` places `NaN` after every category;
rank 17 (strictly above every table rank) models that. -/
def statusRank (s : String) : Nat :=
  (custom_order s).getD 17

/-- Strict lexicographic order on character lists (by code point), the order in
which pandas compares the string sort keys. -/
def charListLt : List Char → List Char → Prop
  | [], [] => False
  | [], _ :: _ => True
  | _ :: _, [] => False
  | a :: as, b :: bs => a.toNat < b.toNat ∨ (a = b ∧ charListLt as bs)

instance charListLt.decidable : (l m : List Char) → Decidable (charListLt l m)
  | [], [] => isFalse id
  | [], _ :: _ => isTrue trivial
  | _ :: _, [] => isFalse id
  | a :: as, b :: bs =>
      have : Decidable (charListLt as bs) := charListLt.decidable as bs
      inferInstanceAs (Decidable (a.toNat < b.toNat ∨ (a = b ∧ charListLt as bs)))

/-- Strict lexicographic order on strings. -/
def strLt (a b : String) : Prop :=
  charListLt a.toList b.toList

instance strLt.decidable (a b : String) : Decidable (strLt a b) := by
  unfold strLt
  infer_instance

/-- Reflexive lexicographic order on strings. -/
def strLe (a b : String) : Prop :=
  strLt a b ∨ a = b

instance strLe.decidable (a b : String) : Decidable (strLe a b) := by
  unfold strLe
  infer_instance

/-- Ascending order on a nullable sort key: pandas `sort_values` puts `NaN` last
(`na_position='last'`), so `none` is strictly greater than every `some`. -/
def optStrLt : Option String → Option String → Prop
  | none, none => False
  | none, some _ => False
  | some _, none => True
  | some a, some b => strLt a b

instance optStrLt.decidable : (a b : Option String) → Decidable (optStrLt a b)
  | none, none => isFalse id
  | none, some _ => isFalse id
  | some _, none => isTrue trivial
  | some a, some b => inferInstanceAs (Decidable (strLt a b))

/-- The comparison realized by `sort_values(by=['PrimaryKey','OrderStatus'])` on
index-annotated rows (`OrderStatus` compares by categorical rank, `NaN` last);
the index component makes the stable lexsort a total antisymmetric order. -/
def dedupLe (p q : Nat × OrderRec) : Prop :=
  optStrLt p.2.PrimaryKey q.2.PrimaryKey ∨
    (p.2.PrimaryKey = q.2.PrimaryKey ∧
      (statusRank p.2.OrderStatus < statusRank q.2.OrderStatus ∨
        (statusRank p.2.OrderStatus = statusRank q.2.OrderStatus ∧ p.1 ≤ q.1)))

instance dedupLe.decidable : DecidableRel dedupLe := by
  intro p q
  unfold dedupLe
  infer_instance

/-- `drop_duplicates(subset='PrimaryKey', keep='first')`: keep a row only when its
`PrimaryKey` has not been seen yet (pandas treats `NaN` keys as equal duplicates). -/
def dropDupByKey : List (Nat × OrderRec) → List (Option String) → List (Nat × OrderRec)
  | [], _ => []
  | p :: ps, seen =>
      if p.2.PrimaryKey ∈ seen then dropDupByKey ps seen
      else p :: dropDupByKey ps (p.2.PrimaryKey :: seen)

/-- The sorted, index-annotated rows of lines 57-58. -/
def dedupSorted (l : List OrderRec) : List (Nat × OrderRec) :=
  List.insertionSort dedupLe l.enum

/-- The index-annotated rows surviving `drop_duplicates` at line 61. -/
def dedupPairs (l : List OrderRec) : List (Nat × OrderRec) :=
  dropDupByKey (dedupSorted l) []

/-- Lines 53-63, `process_deliverect_remove_duplicates`: stable sort by
(`PrimaryKey`, status rank), keep the first row of each `PrimaryKey`, then drop
rows whose `OrderID` is the literal `'#nan'`. -/
def process_deliverect_remove_duplicates (l : List OrderRec) : List OrderRec :=
  ((dedupPairs l).map (fun p => p.2)).filter (fun r => !(r.OrderID == hashNanStr))

/-! ### Item records and the Item Reconciler (`load_deliverect_item_level_detail_data`) -/

/-- An item-level row at the point where the filter/merge of lines 244-251 runs
(after `process_deliverect_shared_data`): exactly the columns the reconciler
keeps at line 270, plus the `TotalPrice` column it creates at line 279. -/
structure ItemRow where
  PrimaryKey : Option String
  OrderID : String
  Location : Option String
  LocWithBrand : Option String
  Brand : String
  DeliveryType : String
  Channel : String
  OrderPlacedDate : String
  OrderPlacedTime : String
  OrderStatus : String
  PaymentType : String
  GrossAOV : ℚ
  PromotionsOnItems : ℚ
  DeliveryCost : ℚ
  Tip : ℚ
  TotalOrderAmount : ℚ
  IsTestOrder : Bool
  ProductPLU : String
  ProductName : String
  ItemPrice : ℚ
  ItemQuantities : ℚ
  TotalPrice : ℚ
deriving DecidableEq, Repr

/-- Lines 244-251: left merge with the deduplicated orders' `(PrimaryKey,
OrderStatus)` pairs carrying `TempColumn = 'Orders'`, then keep only rows where
`TempColumn` is not null.  The right side is keyed by a post-dedup-unique
`PrimaryKey`, so each left row meets at most one match. -/
def filterStage (items : List ItemRow) (pairs : List (Option String × String)) : List ItemRow :=
  ((items.map (fun r =>
      (r, if pairs.any (fun c => c.1 == r.PrimaryKey && c.2 == r.OrderStatus)
          then some ordersTagStr else (none : Option String)))).filter
    (fun rt => rt.2.isSome)).map (fun rt => rt.1)

/-- Line 254: `ItemPrice = ItemPrice / 100` (minor to major currency units). -/
def convertPrice (items : List ItemRow) : List ItemRow :=
  items.map (fun r => { r with ItemPrice := r.ItemPrice / 100 })

/-- Line 279: `TotalPrice = ItemPrice * ItemQuantities` (after the division). -/
def computeTotalPrice (items : List ItemRow) : List ItemRow :=
  items.map (fun r => { r with TotalPrice := r.ItemPrice * r.ItemQuantities })

/-- The `(PrimaryKey, OrderStatus)` pairs of the deduplicated order data
(`clean_df[['PrimaryKey', 'OrderStatus']]` of lines 240-241). -/
def cleanPairs (orders : List OrderRec) : List (Option String × String) :=
  (process_deliverect_remove_duplicates orders).map (fun o => (o.PrimaryKey, o.OrderStatus))

/-- The item rows just before the reconciliation group-by (lines 282 onward):
filtered against the deduplicated orders, price converted, `TotalPrice` set. -/
def preStage (items : List ItemRow) (orders : List OrderRec) : List ItemRow :=
  computeTotalPrice (convertPrice (filterStage items (cleanPairs orders)))

/-- Collect one non-null key into a duplicate-free key list (`NaN` keys are
dropped, `groupby`'s default `dropna=True`). -/
def insKey : Option String → List String → List String
  | none, acc => acc
  | some k, acc => if k ∈ acc then acc else k :: acc

/-- The distinct non-null `PrimaryKey` values of an item list. -/
def distinctKeys : List ItemRow → List String
  | [] => []
  | r :: t => insKey r.PrimaryKey (distinctKeys t)

/-- The group keys of `groupby('PrimaryKey')`, which pandas sorts ascending
(`sort=True` being the default). -/
def groupKeys (l : List ItemRow) : List String :=
  List.insertionSort strLe (distinctKeys l)

/-- The rows of one `PrimaryKey` group. -/
def groupItems (l : List ItemRow) (k : String) : List ItemRow :=
  l.filter (fun r => r.PrimaryKey == some k)

/-- `agg({'TotalPrice': 'sum'})` for one group. -/
def sumTotalPrice (l : List ItemRow) (k : String) : ℚ :=
  ((groupItems l k).map (fun r => r.TotalPrice)).sum

/-- `agg({'GrossAOV': first_total_order_amount})` for one group:
`series.iloc[0]`, the first row's `GrossAOV` (groups are never empty; the
default `0` covers only the unreachable empty case). -/
def firstGrossAOV (l : List ItemRow) (k : String) : ℚ :=
  (((groupItems l k).head?).map (fun r => r.GrossAOV)).getD 0

/-- Exact absolute value, as Python's `abs` on the reconciliation difference. -/
def absQ (q : ℚ) : ℚ :=
  if q < 0 then -q else q

/-- Lines 294-295: `abs(GrossAOV - TotalPrice) < 0.001` — the group passes the
reconciliation check. -/
def balancedAt (l : List ItemRow) (k : String) : Prop :=
  absQ (firstGrossAOV l k - sumTotalPrice l k) < 1 / 1000

instance balancedAt.decidable (l : List ItemRow) (k : String) : Decidable (balancedAt l k) := by
  unfold balancedAt
  infer_instance

/-- Line 298: the groups that failed the check. -/
def imbalancedKeys (l : List ItemRow) : List String :=
  (groupKeys l).filter (fun k => !(decide (balancedAt l k)))

/-- Lines 305-319: the synthesized balancing record for key `k`, difference `d`,
copying the descriptive columns from `m`, the first row of the group
(`df[df['PrimaryKey'] == key].iloc[0]`). -/
def balRecord (k : String) (d : ℚ) (m : ItemRow) : ItemRow :=
  { PrimaryKey := some k
    OrderID := m.OrderID
    Location := m.Location
    LocWithBrand := m.LocWithBrand
    Brand := m.Brand
    DeliveryType := m.DeliveryType
    Channel := m.Channel
    OrderPlacedDate := m.OrderPlacedDate
    OrderPlacedTime := m.OrderPlacedTime
    OrderStatus := m.OrderStatus
    PaymentType := m.PaymentType
    GrossAOV := m.GrossAOV
    PromotionsOnItems := m.PromotionsOnItems
    DeliveryCost := m.DeliveryCost
    Tip := m.Tip
    TotalOrderAmount := m.TotalOrderAmount
    IsTestOrder := m.IsTestOrder
    ProductPLU := balancingPLUStr
    ProductName := balancingNameStr
    ItemPrice := d
    ItemQuantities := 1
    TotalPrice := d }

/-- The balancing record for key `k` of item list `l` (`none` only in the
unreachable case of an empty group). -/
def mkBal (l : List ItemRow) (k : String) : Option ItemRow :=
  ((groupItems l k).head?).map (balRecord k (firstGrossAOV l k - sumTotalPrice l k))

/-- Lines 300-321: `new_records`, one synthesized row per imbalanced group. -/
def newRecords (l : List ItemRow) : List ItemRow :=
  (imbalancedKeys l).filterMap (mkBal l)

/-- Line 324: `pd.concat([df, pd.DataFrame(new_records)], ignore_index=True)`. -/
def balanceStage (l : List ItemRow) : List ItemRow :=
  l ++ newRecords l

/-- The comparison realized by `sort_values(['OrderPlacedDate', 'OrderPlacedTime',
'PrimaryKey'])` on index-annotated rows (stable lexsort, `NaN` keys last). -/
def itemSortLe (p q : Nat × ItemRow) : Prop :=
  strLt p.2.OrderPlacedDate q.2.OrderPlacedDate ∨
    (p.2.OrderPlacedDate = q.2.OrderPlacedDate ∧
      (strLt p.2.OrderPlacedTime q.2.OrderPlacedTime ∨
        (p.2.OrderPlacedTime = q.2.OrderPlacedTime ∧
          (optStrLt p.2.PrimaryKey q.2.PrimaryKey ∨
            (p.2.PrimaryKey = q.2.PrimaryKey ∧ p.1 ≤ q.1)))))

instance itemSortLe.decidable : DecidableRel itemSortLe := by
  intro p q
  unfold itemSortLe
  infer_instance

/-- Lines 326-330: the final stable sort by (`OrderPlacedDate`,
`OrderPlacedTime`, `PrimaryKey`). -/
def finalSort (l : List ItemRow) : List ItemRow :=
  (List.insertionSort itemSortLe l.enum).map (fun p => p.2)

/-- The Item Reconciler from the merge of line 248 to the returned dataframe:
filter against the deduplicated orders, convert prices, compute totals,
append balancing records, final sort. -/
def reconcileItems (items : List ItemRow) (orders : List OrderRec) : List ItemRow :=
  finalSort (balanceStage (preStage items orders))

/-! ### Order-theoretic facts about the sort comparisons -/

theorem charListLt_trans :
    ∀ {l m n : List Char}, charListLt l m → charListLt m n → charListLt l n := by
  intro l
  induction l with
  | nil =>
      intro m n hlm hmn
      cases m with
      | nil => exact hlm.elim
      | cons b bs =>
          cases n with
          | nil => exact hmn.elim
          | cons c cs => exact trivial
  | cons a as ih =>
      intro m n hlm hmn
      cases m with
      | nil => exact hlm.elim
      | cons b bs =>
          cases n with
          | nil => exact hmn.elim
          | cons c cs =>
              rcases hlm with hab | ⟨hab, htail⟩
              · rcases hmn with hbc | ⟨hbc, _⟩
                · exact Or.inl (Nat.lt_trans hab hbc)
                · exact Or.inl (hbc ▸ hab)
              · rcases hmn with hbc | ⟨hbc, htail2⟩
                · exact Or.inl (hab ▸ hbc)
                · exact Or.inr ⟨hab.trans hbc, ih htail htail2⟩

theorem charListLt_irrefl : ∀ {l : List Char}, ¬ charListLt l l := by
  intro l
  induction l with
  | nil => exact id
  | cons a as ih =>
      intro h
      rcases h with h | ⟨_, h⟩
      · exact Nat.lt_irrefl _ h
      · exact ih h

theorem charListLt_trichotomy :
    ∀ (l m : List Char), charListLt l m ∨ l = m ∨ charListLt m l := by
  intro l
  induction l with
  | nil =>
      intro m
      cases m with
      | nil => exact Or.inr (Or.inl rfl)
      | cons b bs => exact Or.inl trivial
  | cons a as ih =>
      intro m
      cases m with
      | nil => exact Or.inr (Or.inr trivial)
      | cons b bs =>
          rcases Nat.lt_trichotomy a.toNat b.toNat with hab | hab | hab
          · exact Or.inl (Or.inl hab)
          · have hab' : a = b := Char.ext (by
              have h2 : a.val.toNat = b.val.toNat := hab
              exact UInt32.toNat.inj h2)
            rcases ih bs with h | h | h
            · exact Or.inl (Or.inr ⟨hab', h⟩)
            · exact Or.inr (Or.inl (by rw [hab', h]))
            · exact Or.inr (Or.inr (Or.inr ⟨hab'.symm, h⟩))
          · exact Or.inr (Or.inr (Or.inl hab))

theorem strLt_trans {a b c : String} (h1 : strLt a b) (h2 : strLt b c) : strLt a c :=
  charListLt_trans h1 h2

theorem strLt_irrefl (a : String) : ¬ strLt a a :=
  charListLt_irrefl

theorem strLt_trichotomy (a b : String) : strLt a b ∨ a = b ∨ strLt b a := by
  rcases charListLt_trichotomy a.toList b.toList with h | h | h
  · exact Or.inl h
  · refine Or.inr (Or.inl ?_)
    cases a with
    | mk da => cases b with
      | mk db => exact congrArg String.mk h
  · exact Or.inr (Or.inr h)

theorem strLt_asymm {a b : String} (h : strLt a b) : ¬ strLt b a := by
  intro h2
  exact strLt_irrefl a (strLt_trans h h2)

theorem strLe_total (a b : String) : strLe a b ∨ strLe b a := by
  rcases strLt_trichotomy a b with h | h | h
  · exact Or.inl (Or.inl h)
  · exact Or.inl (Or.inr h)
  · exact Or.inr (Or.inl h)

theorem strLe_trans {a b c : String} (h1 : strLe a b) (h2 : strLe b c) : strLe a c := by
  rcases h1 with h1 | rfl
  · rcases h2 with h2 | rfl
    · exact Or.inl (strLt_trans h1 h2)
    · exact Or.inl h1
  · exact h2

instance : IsTotal String strLe := ⟨strLe_total⟩

instance : IsTrans String strLe := ⟨fun _ _ _ => strLe_trans⟩

theorem optStrLt_trans :
    ∀ {a b c : Option String}, optStrLt a b → optStrLt b c → optStrLt a c := by
  intro a b c hab hbc
  match a, b, c with
  | none, none, _ => exact hab.elim
  | none, some _, _ => exact hab.elim
  | some _, none, none => exact hbc.elim
  | some _, none, some _ => exact hbc.elim
  | some _, some _, none => exact trivial
  | some x, some y, some z => exact strLt_trans hab hbc

theorem optStrLt_irrefl : ∀ (a : Option String), ¬ optStrLt a a := by
  intro a
  match a with
  | none => exact id
  | some x => exact strLt_irrefl x

theorem optStrLt_trichotomy (a b : Option String) : optStrLt a b ∨ a = b ∨ optStrLt b a := by
  match a, b with
  | none, none => exact Or.inr (Or.inl rfl)
  | none, some _ => exact Or.inr (Or.inr trivial)
  | some _, none => exact Or.inl trivial
  | some x, some y =>
      rcases strLt_trichotomy x y with h | h | h
      · exact Or.inl h
      · exact Or.inr (Or.inl (by rw [h]))
      · exact Or.inr (Or.inr h)

theorem dedupLe_total : ∀ (p q : Nat × OrderRec), dedupLe p q ∨ dedupLe q p := by
  intro p q
  rcases optStrLt_trichotomy p.2.PrimaryKey q.2.PrimaryKey with h | h | h
  · exact Or.inl (Or.inl h)
  · rcases Nat.lt_trichotomy (statusRank p.2.OrderStatus) (statusRank q.2.OrderStatus)
      with h2 | h2 | h2
    · exact Or.inl (Or.inr ⟨h, Or.inl h2⟩)
    · rcases Nat.le_total p.1 q.1 with h3 | h3
      · exact Or.inl (Or.inr ⟨h, Or.inr ⟨h2, h3⟩⟩)
      · exact Or.inr (Or.inr ⟨h.symm, Or.inr ⟨h2.symm, h3⟩⟩)
    · exact Or.inr (Or.inr ⟨h.symm, Or.inl h2⟩)
  · exact Or.inr (Or.inl h)

theorem dedupLe_trans :
    ∀ (p q s : Nat × OrderRec), dedupLe p q → dedupLe q s → dedupLe p s := by
  intro p q s hpq hqs
  rcases hpq with h1 | ⟨e1, h1⟩
  · rcases hqs with h2 | ⟨e2, _⟩
    · exact Or.inl (optStrLt_trans h1 h2)
    · exact Or.inl (e2 ▸ h1)
  · rcases hqs with h2 | ⟨e2, h2⟩
    · exact Or.inl (e1 ▸ h2)
    · refine Or.inr ⟨e1.trans e2, ?_⟩
      rcases h1 with h1 | ⟨r1, i1⟩
      · rcases h2 with h2 | ⟨r2, _⟩
        · exact Or.inl (Nat.lt_trans h1 h2)
        · exact Or.inl (r2 ▸ h1)
      · rcases h2 with h2 | ⟨r2, i2⟩
        · exact Or.inl (r1 ▸ h2)
        · exact Or.inr ⟨r1.trans r2, Nat.le_trans i1 i2⟩

instance : IsTotal (Nat × OrderRec) dedupLe := ⟨dedupLe_total⟩

instance : IsTrans (Nat × OrderRec) dedupLe := ⟨dedupLe_trans⟩

theorem itemSortLe_total : ∀ (p q : Nat × ItemRow), itemSortLe p q ∨ itemSortLe q p := by
  intro p q
  rcases strLt_trichotomy p.2.OrderPlacedDate q.2.OrderPlacedDate with h | h | h
  · exact Or.inl (Or.inl h)
  · rcases strLt_trichotomy p.2.OrderPlacedTime q.2.OrderPlacedTime with h2 | h2 | h2
    · exact Or.inl (Or.inr ⟨h, Or.inl h2⟩)
    · rcases optStrLt_trichotomy p.2.PrimaryKey q.2.PrimaryKey with h3 | h3 | h3
      · exact Or.inl (Or.inr ⟨h, Or.inr ⟨h2, Or.inl h3⟩⟩)
      · rcases Nat.le_total p.1 q.1 with h4 | h4
        · exact Or.inl (Or.inr ⟨h, Or.inr ⟨h2, Or.inr ⟨h3, h4⟩⟩⟩)
        · exact Or.inr (Or.inr ⟨h.symm, Or.inr ⟨h2.symm, Or.inr ⟨h3.symm, h4⟩⟩⟩)
      · exact Or.inr (Or.inr ⟨h.symm, Or.inr ⟨h2.symm, Or.inl h3⟩⟩)
    · exact Or.inr (Or.inr ⟨h.symm, Or.inl h2⟩)
  · exact Or.inr (Or.inl h)

theorem itemSortLe_trans :
    ∀ (p q s : Nat × ItemRow), itemSortLe p q → itemSortLe q s → itemSortLe p s := by
  intro p q s hpq hqs
  rcases hpq with h1 | ⟨e1, h1⟩
  · rcases hqs with h2 | ⟨e2, _⟩
    · exact Or.inl (strLt_trans h1 h2)
    · exact Or.inl (e2 ▸ h1)
  · rcases hqs with h2 | ⟨e2, h2⟩
    · exact Or.inl (e1 ▸ h2)
    · refine Or.inr ⟨e1.trans e2, ?_⟩
      rcases h1 with h1 | ⟨t1, h1⟩
      · rcases h2 with h2 | ⟨t2, _⟩
        · exact Or.inl (strLt_trans h1 h2)
        · exact Or.inl (t2 ▸ h1)
      · rcases h2 with h2 | ⟨t2, h2⟩
        · exact Or.inl (t1 ▸ h2)
        · refine Or.inr ⟨t1.trans t2, ?_⟩
          rcases h1 with h1 | ⟨k1, i1⟩
          · rcases h2 with h2 | ⟨k2, _⟩
            · exact Or.inl (optStrLt_trans h1 h2)
            · exact Or.inl (k2 ▸ h1)
          · rcases h2 with h2 | ⟨k2, i2⟩
            · exact Or.inl (k1 ▸ h2)
            · exact Or.inr ⟨k1.trans k2, Nat.le_trans i1 i2⟩

instance : IsTotal (Nat × ItemRow) itemSortLe := ⟨itemSortLe_total⟩

instance : IsTrans (Nat × ItemRow) itemSortLe := ⟨itemSortLe_trans⟩

/-! ### Facts about `drop_duplicates(keep='first')` -/

theorem dropDupByKey_subset :
    ∀ (l : List (Nat × OrderRec)) (seen : List (Option String)) (p : Nat × OrderRec),
      p ∈ dropDupByKey l seen → p ∈ l := by
  intro l
  induction l with
  | nil => intro seen p h; exact absurd h (by simp [dropDupByKey])
  | cons a t ih =>
      intro seen p h
      by_cases ha : a.2.PrimaryKey ∈ seen
      · simp only [dropDupByKey, if_pos ha] at h
        exact List.mem_cons_of_mem a (ih seen p h)
      · simp only [dropDupByKey, if_neg ha] at h
        rcases List.mem_cons.1 h with h | h
        · exact h ▸ List.mem_cons_self a t
        · exact List.mem_cons_of_mem a (ih _ p h)

theorem dropDupByKey_key_not_seen :
    ∀ (l : List (Nat × OrderRec)) (seen : List (Option String)) (p : Nat × OrderRec),
      p ∈ dropDupByKey l seen → p.2.PrimaryKey ∉ seen := by
  intro l
  induction l with
  | nil => intro seen p h; exact absurd h (by simp [dropDupByKey])
  | cons a t ih =>
      intro seen p h
      by_cases ha : a.2.PrimaryKey ∈ seen
      · simp only [dropDupByKey, if_pos ha] at h
        exact ih seen p h
      · simp only [dropDupByKey, if_neg ha] at h
        rcases List.mem_cons.1 h with h | h
        · exact h ▸ ha
        · intro hmem
          exact ih _ p h (List.mem_cons_of_mem _ hmem)

theorem dropDupByKey_pairwise :
    ∀ (l : List (Nat × OrderRec)) (seen : List (Option String)),
      (dropDupByKey l seen).Pairwise (fun p q => p.2.PrimaryKey ≠ q.2.PrimaryKey) := by
  intro l
  induction l with
  | nil => intro seen; simp [dropDupByKey]
  | cons a t ih =>
      intro seen
      by_cases ha : a.2.PrimaryKey ∈ seen
      · simpa only [dropDupByKey, if_pos ha] using ih seen
      · simp only [dropDupByKey, if_neg ha]
        refine List.Pairwise.cons ?_ (ih _)
        intro q hq heq
        exact dropDupByKey_key_not_seen t _ q hq (heq ▸ List.mem_cons_self _ _)

theorem dropDupByKey_split :
    ∀ (l : List (Nat × OrderRec)) (seen : List (Option String)) (p : Nat × OrderRec),
      p ∈ dropDupByKey l seen →
        ∃ u v, l = u ++ p :: v ∧ p.2.PrimaryKey ∉ seen ∧
          ∀ x ∈ u, x.2.PrimaryKey ≠ p.2.PrimaryKey := by
  intro l
  induction l with
  | nil => intro seen p h; exact absurd h (by simp [dropDupByKey])
  | cons a t ih =>
      intro seen p h
      by_cases ha : a.2.PrimaryKey ∈ seen
      · simp only [dropDupByKey, if_pos ha] at h
        obtain ⟨u, v, hsplit, hseen, hu⟩ := ih seen p h
        refine ⟨a :: u, v, by rw [hsplit]; rfl, hseen, ?_⟩
        intro x hx
        rcases List.mem_cons.1 hx with hx | hx
        · subst hx
          intro heq
          exact hseen (heq ▸ ha)
        · exact hu x hx
      · simp only [dropDupByKey, if_neg ha] at h
        rcases List.mem_cons.1 h with h | h
        · exact ⟨[], t, by simp [h], h ▸ ha, by intro x hx; exact absurd hx (by simp)⟩
        · obtain ⟨u, v, hsplit, hseen, hu⟩ := ih _ p h
          have hpa : p.2.PrimaryKey ≠ a.2.PrimaryKey := by
            intro heq
            exact hseen (heq ▸ List.mem_cons_self _ _)
          refine ⟨a :: u, v, by rw [hsplit]; rfl, ?_, ?_⟩
          · intro hmem
            exact hseen (List.mem_cons_of_mem _ hmem)
          · intro x hx
            rcases List.mem_cons.1 hx with hx | hx
            · exact hx ▸ (fun h2 => hpa h2.symm)
            · exact hu x hx

theorem dropDupByKey_covers :
    ∀ (l : List (Nat × OrderRec)) (seen : List (Option String)) (r : Nat × OrderRec),
      r ∈ l → r.2.PrimaryKey ∉ seen →
        ∃ q ∈ dropDupByKey l seen, q.2.PrimaryKey = r.2.PrimaryKey := by
  intro l
  induction l with
  | nil => intro seen r h; exact absurd h (by simp)
  | cons a t ih =>
      intro seen r hr hseen
      by_cases ha : a.2.PrimaryKey ∈ seen
      · simp only [dropDupByKey, if_pos ha]
        rcases List.mem_cons.1 hr with hr | hr
        · exact absurd (hr ▸ ha) hseen
        · exact ih seen r hr hseen
      · simp only [dropDupByKey, if_neg ha]
        rcases List.mem_cons.1 hr with hr | hr
        · exact ⟨a, List.mem_cons_self _ _, by rw [hr]⟩
        · by_cases hk : r.2.PrimaryKey = a.2.PrimaryKey
          · exact ⟨a, List.mem_cons_self _ _, hk.symm⟩
          · have : r.2.PrimaryKey ∉ a.2.PrimaryKey :: seen := by
              intro hmem
              rcases List.mem_cons.1 hmem with hmem | hmem
              · exact hk hmem
              · exact hseen hmem
            obtain ⟨q, hq, hqk⟩ := ih _ r hr this
            exact ⟨q, List.mem_cons_of_mem _ hq, hqk⟩

/-! ### Facts about the Order Deduplicator -/

theorem dedupSorted_perm (l : List OrderRec) : List.Perm (dedupSorted l) l.enum :=
  List.perm_insertionSort dedupLe l.enum

theorem dedupSorted_sorted (l : List OrderRec) : (dedupSorted l).Sorted dedupLe :=
  List.sorted_insertionSort dedupLe l.enum

theorem snd_mem_of_mem_enum {α : Type} {p : Nat × α} {l : List α} (h : p ∈ l.enum) : p.2 ∈ l := by
  have h2 := List.mem_enum_iff_getElem?.1 h
  exact List.getElem?_mem h2

theorem exists_enum_pair {α : Type} {r : α} {l : List α} (h : r ∈ l) : ∃ i, (i, r) ∈ l.enum := by
  obtain ⟨i, hi⟩ := List.get_of_mem h
  refine ⟨i, List.mk_mem_enum_iff_getElem?.2 ?_⟩
  rw [List.getElem?_eq_getElem i.2]
  exact congrArg some (by rw [← hi]; simp)

theorem mem_of_mem_dedupPairs {l : List OrderRec} {p : Nat × OrderRec}
    (h : p ∈ dedupPairs l) : p ∈ l.enum :=
  (dedupSorted_perm l).mem_iff.1 (dropDupByKey_subset _ _ _ h)

/-- The retained pair of a `PrimaryKey` group has the minimal status rank of the
whole group. -/
theorem dedup_min_rank {l : List OrderRec} {p : Nat × OrderRec} (hp : p ∈ dedupPairs l)
    {q : Nat × OrderRec} (hq : q ∈ l.enum) (hk : q.2.PrimaryKey = p.2.PrimaryKey) :
    statusRank p.2.OrderStatus ≤ statusRank q.2.OrderStatus := by
  obtain ⟨u, v, hsplit, -, hu⟩ := dropDupByKey_split _ _ _ hp
  have hq2 : q ∈ dedupSorted l := (dedupSorted_perm l).mem_iff.2 hq
  rw [hsplit] at hq2
  rcases List.mem_append.1 hq2 with hq2 | hq2
  · exact absurd hk (hu q hq2)
  · rcases List.mem_cons.1 hq2 with hq2 | hq2
    · exact hq2 ▸ Nat.le_refl _
    · have hsorted := dedupSorted_sorted l
      rw [hsplit] at hsorted
      have hle : dedupLe p q :=
        List.rel_of_pairwise_cons (List.pairwise_append.1 hsorted).2.1 hq2
      rcases hle with hlt | ⟨-, hrank⟩
      · rw [← hk] at hlt
        exact absurd hlt (optStrLt_irrefl _)
      · rcases hrank with hrank | ⟨hrank, -⟩
        · exact Nat.le_of_lt hrank
        · exact Nat.le_of_eq hrank

/-- Stability of the deduplication: every same-key row appearing strictly earlier
in the input than the retained pair has a strictly worse status rank. -/
theorem dedup_stable {l : List OrderRec} {p : Nat × OrderRec} (hp : p ∈ dedupPairs l)
    {q : Nat × OrderRec} (hq : q ∈ l.enum) (hk : q.2.PrimaryKey = p.2.PrimaryKey)
    (hidx : q.1 < p.1) :
    statusRank p.2.OrderStatus < statusRank q.2.OrderStatus := by
  obtain ⟨u, v, hsplit, -, hu⟩ := dropDupByKey_split _ _ _ hp
  have hq2 : q ∈ dedupSorted l := (dedupSorted_perm l).mem_iff.2 hq
  rw [hsplit] at hq2
  rcases List.mem_append.1 hq2 with hq2 | hq2
  · exact absurd hk (hu q hq2)
  · rcases List.mem_cons.1 hq2 with hq2 | hq2
    · exact absurd (hq2 ▸ hidx) (Nat.lt_irrefl _)
    · have hsorted := dedupSorted_sorted l
      rw [hsplit] at hsorted
      have hle : dedupLe p q :=
        List.rel_of_pairwise_cons (List.pairwise_append.1 hsorted).2.1 hq2
      rcases hle with hlt | ⟨-, hrank⟩
      · rw [← hk] at hlt
        exact absurd hlt (optStrLt_irrefl _)
      · rcases hrank with hrank | ⟨-, hi⟩
        · exact hrank
        · exact absurd (Nat.lt_of_lt_of_le hidx hi) (Nat.lt_irrefl _)

/-- The deduplicated output has pairwise distinct `PrimaryKey` values. -/
theorem dedup_pairwise_keys (l : List OrderRec) :
    (process_deliverect_remove_duplicates l).Pairwise (fun a b => a.PrimaryKey ≠ b.PrimaryKey) := by
  unfold process_deliverect_remove_duplicates
  refine List.Pairwise.filter _ ?_
  rw [List.pairwise_map]
  exact dropDupByKey_pairwise _ _

/-- Every output row of the deduplicator is an input row. -/
theorem dedup_subset {l : List OrderRec} {r : OrderRec}
    (h : r ∈ process_deliverect_remove_duplicates l) : r ∈ l := by
  unfold process_deliverect_remove_duplicates at h
  obtain ⟨p, hp, hpr⟩ := List.mem_map.1 (List.mem_of_mem_filter h)
  exact hpr ▸ snd_mem_of_mem_enum (mem_of_mem_dedupPairs hp)

/-- Before the `'#nan'` filter, every input `PrimaryKey` keeps exactly one
representative row. -/
theorem dedup_covers {l : List OrderRec} {r : OrderRec} (h : r ∈ l) :
    ∃ q ∈ (dedupPairs l).map (fun p => p.2), q.PrimaryKey = r.PrimaryKey := by
  obtain ⟨i, hi⟩ := exists_enum_pair h
  have hmem : (i, r) ∈ dedupSorted l := (dedupSorted_perm l).mem_iff.2 hi
  obtain ⟨q, hq, hqk⟩ := dropDupByKey_covers _ [] (i, r) hmem (by simp)
  exact ⟨q.2, List.mem_map_of_mem _ hq, hqk⟩

theorem exists_pair_of_mem_dedup {l : List OrderRec} {r : OrderRec}
    (h : r ∈ process_deliverect_remove_duplicates l) : ∃ p ∈ dedupPairs l, p.2 = r := by
  unfold process_deliverect_remove_duplicates at h
  obtain ⟨p, hp, hpr⟩ := List.mem_map.1 (List.mem_of_mem_filter h)
  exact ⟨p, hp, hpr⟩

theorem statusRank_lt_of_known {t : String} (h : custom_order t ≠ none) : statusRank t < 17 := by
  unfold statusRank
  cases hco : custom_order t with
  | none => exact absurd hco h
  | some j =>
      simp only [Option.getD_some]
      have : j ≤ 16 := by
        unfold custom_order at hco
        split at hco <;> simp_all <;> omega
      omega

theorem statusRank_of_unknown {s : String} (h : custom_order s = none) : statusRank s = 17 := by
  unfold statusRank
  rw [h]
  rfl

/-- String constants for the concrete instantiations below. -/
def wOid : String := "#1"
def wKey : String := "K1"
def cancelledStr : String := "Cancelled"
def deliveredStr : String := "Delivered"

/-- Concrete rows used to instantiate the universally quantified claims. -/
def wCancelled : OrderRec :=
  { OrderID := wOid, PrimaryKey := some wKey, OrderStatus := cancelledStr }

def wDelivered : OrderRec :=
  { OrderID := wOid, PrimaryKey := some wKey, OrderStatus := deliveredStr }

/-- C2: for any input set of order-level records, the Order Deduplicator's output
contains no two records sharing the same `PrimaryKey` (and every output record is
an input record, while before the `'#nan'` filter every input `PrimaryKey` keeps
exactly one surviving representative). -/
theorem claim_C2 (l : List OrderRec) :
    (process_deliverect_remove_duplicates l).Pairwise (fun a b => a.PrimaryKey ≠ b.PrimaryKey) ∧
    (∀ r ∈ process_deliverect_remove_duplicates l, r ∈ l) ∧
    (∀ r ∈ l, ∃ q ∈ (dedupPairs l).map (fun p => p.2), q.PrimaryKey = r.PrimaryKey) :=
  ⟨dedup_pairwise_keys l, fun _ h => dedup_subset h, fun _ h => dedup_covers h⟩

theorem claim_C2_witness :
    (process_deliverect_remove_duplicates [wCancelled, wDelivered]).Pairwise
      (fun a b => a.PrimaryKey ≠ b.PrimaryKey) ∧
    wDelivered ∈ ([wCancelled, wDelivered] : List OrderRec) :=
  ⟨(claim_C2 [wCancelled, wDelivered]).1,
    (claim_C2 [wCancelled, wDelivered]).2.1 wDelivered (by decide)⟩

/-- C4: the Order Deduplicator retains, within each `PrimaryKey` group, the record
whose status has the lowest precedence rank in the 17-entry table; statuses outside
the table rank after all known ones; an earlier same-key input row is only beaten
by a strictly better rank (stable tie-breaking on input order); and concretely a
`"Cancelled"`/`"Delivered"` pair retains the `"Delivered"` record. -/
theorem claim_C4 :
    (∀ (l : List OrderRec) (r : OrderRec), r ∈ process_deliverect_remove_duplicates l →
      ∀ s ∈ l, s.PrimaryKey = r.PrimaryKey →
        statusRank r.OrderStatus ≤ statusRank s.OrderStatus) ∧
    (∀ s t : String, custom_order s = none → custom_order t ≠ none →
      statusRank t < statusRank s) ∧
    (∀ (l : List OrderRec) (p q : Nat × OrderRec), p ∈ dedupPairs l → q ∈ l.enum →
      q.2.PrimaryKey = p.2.PrimaryKey → q.1 < p.1 →
        statusRank p.2.OrderStatus < statusRank q.2.OrderStatus) ∧
    process_deliverect_remove_duplicates [wCancelled, wDelivered] = [wDelivered] := by
  refine ⟨?_, ?_, ?_, by decide⟩
  · intro l r hr s hs hk
    obtain ⟨p, hp, hpr⟩ := exists_pair_of_mem_dedup hr
    obtain ⟨j, hj⟩ := exists_enum_pair hs
    have := dedup_min_rank hp hj (by simpa [hpr] using hk)
    simpa [hpr] using this
  · intro s t hs ht
    rw [statusRank_of_unknown hs]
    exact statusRank_lt_of_known ht
  · intro l p q hp hq hk hi
    exact dedup_stable hp hq hk hi

theorem claim_C4_witness :
    statusRank wDelivered.OrderStatus ≤ statusRank wCancelled.OrderStatus ∧
    statusRank deliveredStr < statusRank cancelledStr ∧
    process_deliverect_remove_duplicates [wCancelled, wDelivered] = [wDelivered] :=
  ⟨claim_C4.1 [wCancelled, wDelivered] wDelivered (by decide) wCancelled (by decide) (by decide),
    claim_C4.2.1 cancelledStr deliveredStr (by decide) (by decide),
    claim_C4.2.2.2⟩

/-! ### C8: the two-value brand collapse -/

theorem beastCI_birriaBeast : beastCI birriaBeastStr = true := by decide

theorem beastCI_birdieBirdie : beastCI birdieBirdieStr = false := by decide

theorem birria_ne_birdie : birriaStr ≠ birdieStr := by decide

/-- C8: after brand normalization the `Brand` field holds exactly one of the two
canonical values `'Birria'` / `'Birdie'`; a (comma-free) brand resolves to
`'Birria'` exactly when it contains `'beast'` case-insensitively; a null brand is
first inferred from the same substring test on a (non-null) location and then
collapses accordingly. -/
theorem claim_C8 :
    (∀ (b loc : Option String),
      normalizeBrand b loc = birriaStr ∨ normalizeBrand b loc = birdieStr) ∧
    (∀ (s : String) (loc : Option String), s.toList.contains ',' = false →
      (normalizeBrand (some s) loc = birriaStr ↔ beastCI s = true)) ∧
    (∀ t : String, (normalizeBrand none (some t) = birriaStr ↔ beastCI t = true)) := by
  refine ⟨?_, ?_, ?_⟩
  · intro b loc
    unfold normalizeBrand collapseBrand
    by_cases h : beastCI (inferNullBrand (splitCommaBrand b) loc) = true
    · rw [if_pos h]
      exact Or.inl rfl
    · rw [if_neg h]
      exact Or.inr rfl
  · intro s loc hcomma
    have hsplit : splitCommaBrand (some s) = some s := by
      simp only [splitCommaBrand]
      rw [hcomma]
      simp
    have hnorm : normalizeBrand (some s) loc = collapseBrand s := by
      unfold normalizeBrand
      rw [hsplit]
      rfl
    rw [hnorm]
    unfold collapseBrand
    by_cases h : beastCI s = true
    · rw [if_pos h]
      exact ⟨fun _ => h, fun _ => rfl⟩
    · rw [if_neg h]
      exact ⟨fun he => (birria_ne_birdie he.symm).elim, fun he => absurd he h⟩
  · intro t
    by_cases h : beastCI t = true
    · have hnorm : normalizeBrand none (some t) = birriaStr := by
        have : inferNullBrand (splitCommaBrand none) (some t) = birriaBeastStr := by
          simp [splitCommaBrand, inferNullBrand, h]
        unfold normalizeBrand
        rw [this]
        unfold collapseBrand
        rw [if_pos beastCI_birriaBeast]
      rw [hnorm]
      exact ⟨fun _ => h, fun _ => rfl⟩
    · have hnorm : normalizeBrand none (some t) = birdieStr := by
        have : inferNullBrand (splitCommaBrand none) (some t) = birdieBirdieStr := by
          simp [splitCommaBrand, inferNullBrand, h]
        unfold normalizeBrand
        rw [this]
        unfold collapseBrand
        rw [beastCI_birdieBirdie]
        rfl
      rw [hnorm]
      exact ⟨fun he => (birria_ne_birdie he.symm).elim, fun he => absurd he h⟩

/-- Strings used to instantiate the brand claims concretely. -/
def wBeastBrand : String := "The Beast House"
def wPlainBrand : String := "Taco Crew"
def wPlainLoc : String := "Berlin Mitte"

theorem claim_C8_witness :
    (normalizeBrand (some wPlainBrand) (some wPlainLoc) = birriaStr ∨
      normalizeBrand (some wPlainBrand) (some wPlainLoc) = birdieStr) ∧
    (normalizeBrand (some wBeastBrand) none = birriaStr ↔ beastCI wBeastBrand = true) ∧
    (normalizeBrand none (some wPlainLoc) = birriaStr ↔ beastCI wPlainLoc = true) :=
  ⟨claim_C8.1 (some wPlainBrand) (some wPlainLoc),
    claim_C8.2.1 wBeastBrand none (by decide),
    claim_C8.2.2 wPlainLoc⟩

/-! ### C10: unmapped locations, null PrimaryKeys, and deduplication -/

theorem countP_none_le_one {l : List OrderRec}
    (h : l.Pairwise (fun a b => a.PrimaryKey ≠ b.PrimaryKey)) :
    l.countP (fun r => r.PrimaryKey.isNone) ≤ 1 := by
  induction l with
  | nil => simp
  | cons a t ih =>
      rcases List.pairwise_cons.1 h with ⟨ha, ht⟩
      rw [List.countP_cons]
      by_cases hk : a.PrimaryKey.isNone = true
      · have hzero : t.countP (fun r => r.PrimaryKey.isNone) = 0 := by
          rw [List.countP_eq_zero]
          intro x hx hxk
          have h1 : a.PrimaryKey = none := Option.isNone_iff_eq_none.1 hk
          have h2 : x.PrimaryKey = none := Option.isNone_iff_eq_none.1 hxk
          exact ha x hx (h1.trans h2.symm)
        simp [hk, hzero]
      · have hle := ih ht
        simp only [hk, if_false]
        simpa using hle

/-- C10: a location with no exact match in the cleaned-names table becomes the
null marker, the `PrimaryKey` built from it is therefore also the null marker,
and the deduplicator keeps at most one null-keyed record (all null keys count as
one duplicate group). -/
theorem claim_C10 :
    (∀ (table : List (String × String)) (s oid date : String),
      lookupCleaned table (replaceUmlauts s) = none →
        clean_location_names table (some s) = none ∧
        mkPrimaryKey oid (clean_location_names table (some s)) date = none) ∧
    (∀ l : List OrderRec,
      (process_deliverect_remove_duplicates l).countP (fun r => r.PrimaryKey.isNone) ≤ 1) := by
  constructor
  · intro table s oid date hmiss
    have hclean : clean_location_names table (some s) = none := by
      unfold clean_location_names
      simpa using hmiss
    exact ⟨hclean, by rw [hclean]; rfl⟩
  · intro l
    exact countP_none_le_one (dedup_pairwise_keys l)

/-- Constants for the concrete C10 instantiation. -/
def wRawLoc : String := "Köpenick"
def wTableKey : String := "Mitte"
def wTableVal : String := "Berlin Mitte"
def wTable : List (String × String) := [(wTableKey, wTableVal)]
def wDate : String := "2023-01-01"

def wNullKeyNew : OrderRec :=
  { OrderID := wOid, PrimaryKey := none, OrderStatus := nanStr }

def wNullKeyOld : OrderRec :=
  { OrderID := wOid, PrimaryKey := none, OrderStatus := deliveredStr }

theorem claim_C10_witness :
    clean_location_names wTable (some wRawLoc) = none ∧
    mkPrimaryKey wOid (clean_location_names wTable (some wRawLoc)) wDate = none ∧
    (process_deliverect_remove_duplicates [wNullKeyNew, wNullKeyOld]).countP
      (fun r => r.PrimaryKey.isNone) ≤ 1 :=
  ⟨(claim_C10.1 wTable wRawLoc wOid wDate (by decide)).1,
    (claim_C10.1 wTable wRawLoc wOid wDate (by decide)).2,
    claim_C10.2 [wNullKeyNew, wNullKeyOld]⟩

/-! ### Facts about the reconciliation group-by -/

theorem mem_insKey {o : Option String} {acc : List String} {k : String} :
    k ∈ insKey o acc ↔ o = some k ∨ k ∈ acc := by
  cases o with
  | none => simp [insKey]
  | some k' =>
      show k ∈ (if k' ∈ acc then acc else k' :: acc) ↔ _
      by_cases hmem : k' ∈ acc
      · rw [if_pos hmem]
        constructor
        · exact fun h => Or.inr h
        · rintro (h | h)
          · injection h with h
            exact h ▸ hmem
          · exact h
      · rw [if_neg hmem]
        constructor
        · intro h
          rcases List.mem_cons.1 h with h | h
          · exact Or.inl (by rw [h])
          · exact Or.inr h
        · rintro (h | h)
          · injection h with h
            exact h ▸ List.mem_cons_self _ _
          · exact List.mem_cons_of_mem _ h

theorem insKey_nodup {o : Option String} {acc : List String} (h : acc.Nodup) :
    (insKey o acc).Nodup := by
  cases o with
  | none => exact h
  | some k' =>
      show (if k' ∈ acc then acc else k' :: acc).Nodup
      by_cases hmem : k' ∈ acc
      · rw [if_pos hmem]
        exact h
      · rw [if_neg hmem]
        exact List.Nodup.cons hmem h

theorem mem_distinctKeys :
    ∀ {l : List ItemRow} {k : String},
      k ∈ distinctKeys l ↔ ∃ r ∈ l, r.PrimaryKey = some k := by
  intro l
  induction l with
  | nil => intro k; simp [distinctKeys]
  | cons r t ih =>
      intro k
      show k ∈ insKey r.PrimaryKey (distinctKeys t) ↔ _
      rw [mem_insKey, ih]
      constructor
      · rintro (h | ⟨s, hs, hsk⟩)
        · exact ⟨r, List.mem_cons_self _ _, h⟩
        · exact ⟨s, List.mem_cons_of_mem _ hs, hsk⟩
      · rintro ⟨s, hs, hsk⟩
        rcases List.mem_cons.1 hs with hs | hs
        · exact Or.inl (hs ▸ hsk)
        · exact Or.inr ⟨s, hs, hsk⟩

theorem distinctKeys_nodup : ∀ (l : List ItemRow), (distinctKeys l).Nodup := by
  intro l
  induction l with
  | nil => simp [distinctKeys]
  | cons r t ih => exact insKey_nodup ih

theorem groupKeys_perm (l : List ItemRow) : List.Perm (groupKeys l) (distinctKeys l) :=
  List.perm_insertionSort strLe (distinctKeys l)

theorem groupKeys_nodup (l : List ItemRow) : (groupKeys l).Nodup :=
  ((groupKeys_perm l).nodup_iff).2 (distinctKeys_nodup l)

theorem mem_groupKeys {l : List ItemRow} {k : String} :
    k ∈ groupKeys l ↔ ∃ r ∈ l, r.PrimaryKey = some k := by
  rw [(groupKeys_perm l).mem_iff]
  exact mem_distinctKeys

theorem mem_groupItems {l : List ItemRow} {k : String} {r : ItemRow} :
    r ∈ groupItems l k ↔ r ∈ l ∧ r.PrimaryKey = some k := by
  simp [groupItems, List.mem_filter]

theorem groupItems_append (l₁ l₂ : List ItemRow) (k : String) :
    groupItems (l₁ ++ l₂) k = groupItems l₁ k ++ groupItems l₂ k := by
  unfold groupItems
  exact List.filter_append _ _

theorem groupItems_key {l : List ItemRow} {k : String} {r : ItemRow}
    (h : r ∈ groupItems l k) : r.PrimaryKey = some k :=
  (mem_groupItems.1 h).2

theorem groupItems_ne_nil {l : List ItemRow} {k : String} (h : k ∈ groupKeys l) :
    ∃ m, (groupItems l k).head? = some m := by
  obtain ⟨r, hr, hrk⟩ := mem_groupKeys.1 h
  have hmem : r ∈ groupItems l k := mem_groupItems.2 ⟨hr, hrk⟩
  cases hg : groupItems l k with
  | nil => exact absurd (hg ▸ hmem) (by simp)
  | cons m t => exact ⟨m, rfl⟩

theorem head?_mem_groupItems {l : List ItemRow} {k : String} {m : ItemRow}
    (h : (groupItems l k).head? = some m) : m ∈ l ∧ m.PrimaryKey = some k :=
  mem_groupItems.1 (List.mem_of_mem_head? h)

theorem sumTotalPrice_append (l₁ l₂ : List ItemRow) (k : String) :
    sumTotalPrice (l₁ ++ l₂) k = sumTotalPrice l₁ k + sumTotalPrice l₂ k := by
  unfold sumTotalPrice
  rw [groupItems_append, List.map_append, List.sum_append]

theorem firstGrossAOV_append_left {l₁ : List ItemRow} (l₂ : List ItemRow) {k : String}
    (h : k ∈ groupKeys l₁) : firstGrossAOV (l₁ ++ l₂) k = firstGrossAOV l₁ k := by
  obtain ⟨m, hm⟩ := groupItems_ne_nil h
  unfold firstGrossAOV
  rw [groupItems_append]
  cases hg : groupItems l₁ k with
  | nil => rw [hg] at hm; exact absurd hm (by simp)
  | cons x t => simp [List.cons_append]

/-! ### Facts about the balancing stage -/

theorem groupItems_cons (r : ItemRow) (l : List ItemRow) (k : String) :
    groupItems (r :: l) k =
      if r.PrimaryKey == some k then r :: groupItems l k else groupItems l k := by
  unfold groupItems
  rw [List.filter_cons]

theorem mkBal_of_head {l : List ItemRow} {k : String} {m : ItemRow}
    (h : (groupItems l k).head? = some m) :
    mkBal l k = some (balRecord k (firstGrossAOV l k - sumTotalPrice l k) m) := by
  unfold mkBal
  rw [h]
  rfl

theorem mkBal_key {l : List ItemRow} {k : String} {b : ItemRow}
    (h : mkBal l k = some b) : b.PrimaryKey = some k := by
  unfold mkBal at h
  cases hh : (groupItems l k).head? with
  | none => rw [hh] at h; exact absurd h (by simp)
  | some m =>
      rw [hh] at h
      injection h with h
      rw [← h]
      rfl

theorem groupItems_filterMap_mkBal (L : List ItemRow) :
    ∀ (ks : List String), ks.Nodup → ∀ k0 : String,
      groupItems (ks.filterMap (mkBal L)) k0 =
        (if k0 ∈ ks then mkBal L k0 else none).toList := by
  intro ks
  induction ks with
  | nil =>
      intro _ k0
      simp [groupItems]
  | cons k t ih =>
      intro hnd k0
      rcases List.nodup_cons.1 hnd with ⟨hk, ht⟩
      by_cases hk0 : k0 = k
      · subst hk0
        cases hb : mkBal L k0 with
        | none =>
            simp only [List.filterMap_cons, hb]
            rw [ih ht k0]
            simp [hk, hb]
        | some b =>
            have hbk : b.PrimaryKey = some k0 := mkBal_key hb
            simp only [List.filterMap_cons, hb]
            rw [groupItems_cons, if_pos (by simp [hbk]), ih ht k0]
            simp [hk, hb]
      · cases hb : mkBal L k with
        | none =>
            simp only [List.filterMap_cons, hb]
            rw [ih ht k0]
            simp [fun h => hk0 h]
        | some b =>
            have hbk : b.PrimaryKey = some k := mkBal_key hb
            simp only [List.filterMap_cons, hb]
            rw [groupItems_cons, if_neg (by simp [hbk]; exact fun h => hk0 h.symm), ih ht k0]
            simp [fun h => hk0 h]

theorem imbalancedKeys_nodup (l : List ItemRow) : (imbalancedKeys l).Nodup :=
  (groupKeys_nodup l).filter _

theorem mem_imbalancedKeys {l : List ItemRow} {k : String} :
    k ∈ imbalancedKeys l ↔ k ∈ groupKeys l ∧ ¬ balancedAt l k := by
  unfold imbalancedKeys
  rw [List.mem_filter]
  simp

theorem groupItems_newRecords (l : List ItemRow) (k : String) :
    groupItems (newRecords l) k =
      (if k ∈ imbalancedKeys l then mkBal l k else none).toList :=
  groupItems_filterMap_mkBal l (imbalancedKeys l) (imbalancedKeys_nodup l) k

theorem newRecords_key_mem {l : List ItemRow} {r : ItemRow} (h : r ∈ newRecords l) :
    ∃ k, r.PrimaryKey = some k ∧ k ∈ imbalancedKeys l := by
  unfold newRecords at h
  obtain ⟨k, hk, hb⟩ := List.mem_filterMap.1 h
  exact ⟨k, mkBal_key hb, hk⟩

theorem groupKeys_balanceStage_sub {l : List ItemRow} {k : String}
    (h : k ∈ groupKeys (balanceStage l)) : k ∈ groupKeys l := by
  obtain ⟨r, hr, hrk⟩ := mem_groupKeys.1 h
  rcases List.mem_append.1 hr with hr | hr
  · exact mem_groupKeys.2 ⟨r, hr, hrk⟩
  · obtain ⟨k', hk', hkim⟩ := newRecords_key_mem hr
    have hkk : k' = k := by
      rw [hrk] at hk'
      exact (Option.some.inj hk').symm
    subst hkk
    exact (mem_imbalancedKeys.1 hkim).1

theorem sumTotalPrice_newRecords {l : List ItemRow} {k : String} (h : k ∈ imbalancedKeys l)
    {m : ItemRow} (hm : (groupItems l k).head? = some m) :
    sumTotalPrice (newRecords l) k = firstGrossAOV l k - sumTotalPrice l k := by
  have hg : groupItems (newRecords l) k =
      [balRecord k (firstGrossAOV l k - sumTotalPrice l k) m] := by
    rw [groupItems_newRecords, if_pos h, mkBal_of_head hm]
    rfl
  unfold sumTotalPrice
  rw [hg]
  simp [balRecord, sumTotalPrice]

theorem sumTotalPrice_newRecords_zero {l : List ItemRow} {k : String}
    (h : k ∉ imbalancedKeys l) : sumTotalPrice (newRecords l) k = 0 := by
  unfold sumTotalPrice
  rw [groupItems_newRecords, if_neg h]
  simp

theorem absQ_zero_lt_tol : absQ 0 < 1 / 1000 := by
  norm_num [absQ]

/-- After appending the balancing records, every group passes the
reconciliation check. -/
theorem balancedAt_balanceStage (l : List ItemRow) (k : String)
    (h : k ∈ groupKeys (balanceStage l)) : balancedAt (balanceStage l) k := by
  have hk : k ∈ groupKeys l := groupKeys_balanceStage_sub h
  have hG : firstGrossAOV (balanceStage l) k = firstGrossAOV l k :=
    firstGrossAOV_append_left _ hk
  have hsum : sumTotalPrice (balanceStage l) k =
      sumTotalPrice l k + sumTotalPrice (newRecords l) k :=
    sumTotalPrice_append l (newRecords l) k
  by_cases hb : balancedAt l k
  · have him : k ∉ imbalancedKeys l := fun him => (mem_imbalancedKeys.1 him).2 hb
    unfold balancedAt
    rw [hG, hsum, sumTotalPrice_newRecords_zero him, add_zero]
    exact hb
  · have him : k ∈ imbalancedKeys l := mem_imbalancedKeys.2 ⟨hk, hb⟩
    obtain ⟨m, hm⟩ := groupItems_ne_nil hk
    unfold balancedAt
    rw [hG, hsum, sumTotalPrice_newRecords him hm]
    have : firstGrossAOV l k -
        (sumTotalPrice l k + (firstGrossAOV l k - sumTotalPrice l k)) = 0 := by
      ring
    rw [this]
    exact absQ_zero_lt_tol

theorem newRecords_eq_nil_of_balanced {l : List ItemRow}
    (h : ∀ k ∈ groupKeys l, balancedAt l k) : newRecords l = [] := by
  unfold newRecords
  have him : imbalancedKeys l = [] := by
    unfold imbalancedKeys
    rw [List.filter_eq_nil_iff]
    intro k hk
    simp [h k hk]
  rw [him]
  rfl

theorem balanceStage_of_balanced {l : List ItemRow}
    (h : ∀ k ∈ groupKeys l, balancedAt l k) : balanceStage l = l := by
  unfold balanceStage
  rw [newRecords_eq_nil_of_balanced h, List.append_nil]

theorem newRecords_balanceStage (l : List ItemRow) : newRecords (balanceStage l) = [] :=
  newRecords_eq_nil_of_balanced (fun k hk => balancedAt_balanceStage l k hk)

/-! ### Facts about the final sort -/

theorem finalSort_perm (l : List ItemRow) : List.Perm (finalSort l) l := by
  unfold finalSort
  have h1 : List.Perm ((List.insertionSort itemSortLe l.enum).map (fun p => p.2))
      (l.enum.map (fun p => p.2)) :=
    (List.perm_insertionSort itemSortLe l.enum).map _
  have h2 : l.enum.map (fun p : Nat × ItemRow => p.2) = l := List.enum_map_snd l
  refine List.Perm.trans h1 ?_
  rw [h2]

theorem sumTotalPrice_of_perm {l₁ l₂ : List ItemRow} (h : List.Perm l₁ l₂) (k : String) :
    sumTotalPrice l₁ k = sumTotalPrice l₂ k := by
  unfold sumTotalPrice groupItems
  exact ((h.filter _).map _).sum_eq

theorem mem_groupKeys_of_perm {l₁ l₂ : List ItemRow} (h : List.Perm l₁ l₂) {k : String} :
    k ∈ groupKeys l₁ ↔ k ∈ groupKeys l₂ := by
  rw [mem_groupKeys, mem_groupKeys]
  constructor <;> rintro ⟨r, hr, hrk⟩
  · exact ⟨r, h.mem_iff.1 hr, hrk⟩
  · exact ⟨r, h.mem_iff.2 hr, hrk⟩

theorem firstGrossAOV_balanceStage {l : List ItemRow} {k : String} (h : k ∈ groupKeys l) :
    firstGrossAOV (balanceStage l) k = firstGrossAOV l k :=
  firstGrossAOV_append_left _ h

/-- C7: the balancing step is idempotent — on an item set whose groups all pass
the reconciliation check (as its own output does) it appends zero balancing
records and returns the item set unchanged; in particular a second application
is the identity on the first one's output. -/
theorem claim_C7 (l : List ItemRow) :
    ((∀ k ∈ groupKeys l, balancedAt l k) → balanceStage l = l) ∧
    newRecords (balanceStage l) = [] ∧
    balanceStage (balanceStage l) = balanceStage l := by
  refine ⟨balanceStage_of_balanced, newRecords_balanceStage l, ?_⟩
  show balanceStage l ++ newRecords (balanceStage l) = balanceStage l
  rw [newRecords_balanceStage l, List.append_nil]

/-- Concrete item-level data for the witnesses: the two rows of the spec's own
reconciliation scenario (unit prices 500 and 300 minor units, quantities 2 and
1, `GrossAOV` 10.00), plus a manufactured balanced row. -/
def wTime : String := "12:00:00"
def wKeyA : String := "A"
def wLoc : String := "Mitte"
def wLB : String := "Mitte - Birdie"
def wDel : String := "delivery"
def wChan : String := "UberEats"
def wPay : String := "card"
def wTaco : String := "Taco"
def wBurrito : String := "Burrito"
def wPLU1 : String := "p1"
def wPLU2 : String := "p2"

def wBase : ItemRow :=
  { PrimaryKey := some wKeyA, OrderID := wOid, Location := some wLoc
    LocWithBrand := some wLB, Brand := birdieStr, DeliveryType := wDel, Channel := wChan
    OrderPlacedDate := wDate, OrderPlacedTime := wTime
    OrderStatus := deliveredStr, PaymentType := wPay
    GrossAOV := 10, PromotionsOnItems := 0, DeliveryCost := 0, Tip := 0
    TotalOrderAmount := 10, IsTestOrder := false
    ProductPLU := wPLU1, ProductName := wTaco
    ItemPrice := 500, ItemQuantities := 2, TotalPrice := 0 }

def wItem500 : ItemRow := wBase

def wItem300 : ItemRow :=
  { wBase with ProductPLU := wPLU2, ProductName := wBurrito
               ItemPrice := 300, ItemQuantities := 1 }

def wOrderA : OrderRec :=
  { OrderID := wOid, PrimaryKey := some wKeyA, OrderStatus := deliveredStr }

def wItemsA : List ItemRow := [wItem500, wItem300]

def wOrdersA : List OrderRec := [wOrderA]

def wBalanced : ItemRow :=
  { wBase with ItemPrice := 10, ItemQuantities := 1, TotalPrice := 10, GrossAOV := 10 }

theorem claim_C7_witness : balanceStage [wBalanced] = [wBalanced] :=
  (claim_C7 [wBalanced]).1 (by with_unfolding_all decide)

/-- C1: for every `PrimaryKey` in the reconciled output, the `TotalPrice` sum of
its group (balancing item included) is within 0.001 of the group's `GrossAOV`;
a group passing the check gets no balancing record, and an imbalanced group gets
exactly one, carrying the signed difference as price and total, the sentinel
product name and PLU, and quantity 1. -/
theorem claim_C1 (items : List ItemRow) (orders : List OrderRec) (k : String)
    (hk : k ∈ groupKeys (reconcileItems items orders)) :
    absQ (firstGrossAOV (preStage items orders) k -
        sumTotalPrice (reconcileItems items orders) k) < 1 / 1000 ∧
    (balancedAt (preStage items orders) k →
      groupItems (newRecords (preStage items orders)) k = []) ∧
    (¬ balancedAt (preStage items orders) k →
      ∃ b, groupItems (newRecords (preStage items orders)) k = [b] ∧
        b.ItemPrice = firstGrossAOV (preStage items orders) k -
          sumTotalPrice (preStage items orders) k ∧
        b.TotalPrice = firstGrossAOV (preStage items orders) k -
          sumTotalPrice (preStage items orders) k ∧
        b.ProductName = balancingNameStr ∧ b.ProductPLU = balancingPLUStr ∧
        b.ItemQuantities = 1 ∧ b.PrimaryKey = some k) := by
  have hperm : List.Perm (reconcileItems items orders)
      (balanceStage (preStage items orders)) := finalSort_perm _
  have hk2 : k ∈ groupKeys (balanceStage (preStage items orders)) :=
    (mem_groupKeys_of_perm hperm).1 hk
  have hkpre : k ∈ groupKeys (preStage items orders) := groupKeys_balanceStage_sub hk2
  refine ⟨?_, ?_, ?_⟩
  · have hbal := balancedAt_balanceStage (preStage items orders) k hk2
    unfold balancedAt at hbal
    rw [firstGrossAOV_balanceStage hkpre] at hbal
    rw [sumTotalPrice_of_perm hperm k]
    exact hbal
  · intro hb
    have him : k ∉ imbalancedKeys (preStage items orders) := fun him =>
      (mem_imbalancedKeys.1 him).2 hb
    rw [groupItems_newRecords, if_neg him]
    rfl
  · intro hb
    have him : k ∈ imbalancedKeys (preStage items orders) :=
      mem_imbalancedKeys.2 ⟨hkpre, hb⟩
    obtain ⟨m, hm⟩ := groupItems_ne_nil hkpre
    refine ⟨balRecord k (firstGrossAOV (preStage items orders) k -
        sumTotalPrice (preStage items orders) k) m, ?_, rfl, rfl, rfl, rfl, rfl, rfl⟩
    rw [groupItems_newRecords, if_pos him, mkBal_of_head hm]
    rfl

theorem claim_C1_witness :
    absQ (firstGrossAOV (preStage wItemsA wOrdersA) wKeyA -
        sumTotalPrice (reconcileItems wItemsA wOrdersA) wKeyA) < 1 / 1000 :=
  (claim_C1 wItemsA wOrdersA wKeyA (by with_unfolding_all decide)).1

/-! ### C3: the semi-join filter -/

theorem filterStage_eq_filter (items : List ItemRow) (pairs : List (Option String × String)) :
    filterStage items pairs =
      items.filter (fun r => pairs.any (fun c => c.1 == r.PrimaryKey && c.2 == r.OrderStatus)) := by
  induction items with
  | nil => rfl
  | cons r t ih =>
      unfold filterStage at ih ⊢
      rw [List.map_cons, List.filter_cons, List.filter_cons]
      by_cases h : pairs.any (fun c => c.1 == r.PrimaryKey && c.2 == r.OrderStatus) = true
      · rw [if_pos (by simp [h]), List.map_cons, ih]
        simp [h]
      · rw [if_neg (by simp [h]), ih]
        simp [h]

theorem mem_filterStage {items : List ItemRow} {pairs : List (Option String × String)}
    {r : ItemRow} :
    r ∈ filterStage items pairs ↔ r ∈ items ∧ (r.PrimaryKey, r.OrderStatus) ∈ pairs := by
  rw [filterStage_eq_filter, List.mem_filter]
  refine and_congr_right (fun _ => ?_)
  rw [List.any_eq_true]
  constructor
  · rintro ⟨c, hc, hcr⟩
    rcases Bool.and_eq_true_iff.1 hcr with ⟨h1, h2⟩
    have e1 : c.1 = r.PrimaryKey := by simpa using h1
    have e2 : c.2 = r.OrderStatus := by simpa using h2
    have : c = (r.PrimaryKey, r.OrderStatus) := Prod.ext e1 e2
    exact this ▸ hc
  · intro hmem
    exact ⟨(r.PrimaryKey, r.OrderStatus), hmem, by simp⟩

theorem mem_preStage {items : List ItemRow} {orders : List OrderRec} {r : ItemRow}
    (h : r ∈ preStage items orders) :
    ∃ s ∈ items, (s.PrimaryKey, s.OrderStatus) ∈ cleanPairs orders ∧
      r = { s with ItemPrice := s.ItemPrice / 100,
                   TotalPrice := s.ItemPrice / 100 * s.ItemQuantities } := by
  unfold preStage computeTotalPrice convertPrice at h
  obtain ⟨x, hx, hxr⟩ := List.mem_map.1 h
  obtain ⟨s, hs, hsx⟩ := List.mem_map.1 hx
  obtain ⟨hs_items, hpair⟩ := mem_filterStage.1 hs
  refine ⟨s, hs_items, hpair, ?_⟩
  rw [← hxr, ← hsx]

theorem mem_newRecords {l : List ItemRow} {r : ItemRow} (h : r ∈ newRecords l) :
    ∃ k m, (groupItems l k).head? = some m ∧
      r = balRecord k (firstGrossAOV l k - sumTotalPrice l k) m := by
  unfold newRecords at h
  obtain ⟨k, hk, hb⟩ := List.mem_filterMap.1 h
  unfold mkBal at hb
  cases hh : (groupItems l k).head? with
  | none => rw [hh] at hb; exact absurd hb (by simp)
  | some m =>
      rw [hh] at hb
      simp only [Option.map_some'] at hb
      exact ⟨k, m, hh, (Option.some.inj hb).symm⟩

/-- C3: the filter stage is a left-semi-join — an item row survives exactly when
its `(PrimaryKey, OrderStatus)` pair occurs among the deduplicated orders' pairs
(no null-filled rows are retained), and every row of the reconciled output,
balancing records included, carries a pair of the deduplicated order set. -/
theorem claim_C3 :
    (∀ (items : List ItemRow) (pairs : List (Option String × String)) (r : ItemRow),
      r ∈ filterStage items pairs ↔
        r ∈ items ∧ (r.PrimaryKey, r.OrderStatus) ∈ pairs) ∧
    (∀ (items : List ItemRow) (orders : List OrderRec) (r : ItemRow),
      r ∈ reconcileItems items orders →
        (r.PrimaryKey, r.OrderStatus) ∈ cleanPairs orders) := by
  refine ⟨fun _ _ _ => mem_filterStage, ?_⟩
  intro items orders r hr
  have hperm : List.Perm (reconcileItems items orders)
      (balanceStage (preStage items orders)) := finalSort_perm _
  have hr2 : r ∈ balanceStage (preStage items orders) := hperm.mem_iff.1 hr
  rcases List.mem_append.1 hr2 with hr2 | hr2
  · obtain ⟨s, hs, hpair, hform⟩ := mem_preStage hr2
    rw [hform]
    exact hpair
  · obtain ⟨k, m, hh, hform⟩ := mem_newRecords hr2
    obtain ⟨hm_pre, hmk⟩ := head?_mem_groupItems hh
    obtain ⟨s, hs, hpair, hsform⟩ := mem_preStage hm_pre
    have hpm : (m.PrimaryKey, m.OrderStatus) ∈ cleanPairs orders := by
      rw [hsform]
      exact hpair
    rw [hform]
    show (some k, m.OrderStatus) ∈ cleanPairs orders
    rw [← hmk]
    exact hpm

/-- The image of the 500-cent scenario row in the reconciled output. -/
def wOut500 : ItemRow := { wItem500 with ItemPrice := 5, TotalPrice := 10 }

theorem claim_C3_witness :
    (wItem500 ∈ filterStage wItemsA (cleanPairs wOrdersA) ↔
      wItem500 ∈ wItemsA ∧
        (wItem500.PrimaryKey, wItem500.OrderStatus) ∈ cleanPairs wOrdersA) ∧
    (wOut500.PrimaryKey, wOut500.OrderStatus) ∈ cleanPairs wOrdersA :=
  ⟨claim_C3.1 wItemsA (cleanPairs wOrdersA) wItem500,
    claim_C3.2 wItemsA wOrdersA wOut500 (by with_unfolding_all decide)⟩

/-! ### C5: the concrete reconciliation scenario -/

/-- C5 counterexample: on the spec's scenario input (unit prices 500 and 300
minor units, quantities 2 and 1, `GrossAOV` 10.00 for the shared key), the
reconciler does **not** produce a `TotalPrice` sum of 8.00 with a +2.00
balancing record: `TotalPrice` multiplies the converted unit price by the
quantity, so the sum is 5.00·2 + 3.00·1 = 13.00. -/
theorem claim_C5_counterexample :
    ¬ (sumTotalPrice (preStage wItemsA wOrdersA) wKeyA = 8 ∧
       (newRecords (preStage wItemsA wOrdersA)).map (fun r => r.ItemPrice) = [2] ∧
       (newRecords (preStage wItemsA wOrdersA)).map (fun r => r.TotalPrice) = [2]) := by
  with_unfolding_all decide

/-- C5 amended: on the scenario input the reconciler computes a `TotalPrice` sum
of 13.00 (= 5.00×2 + 3.00×1 after the divide-by-100 conversion), detects the
imbalance `GrossAOV − sum = −3.00`, and appends exactly one balancing record
with price and total −3.00. -/
theorem claim_C5_amended :
    sumTotalPrice (preStage wItemsA wOrdersA) wKeyA = 13 ∧
    firstGrossAOV (preStage wItemsA wOrdersA) wKeyA -
      sumTotalPrice (preStage wItemsA wOrdersA) wKeyA = -3 ∧
    ¬ balancedAt (preStage wItemsA wOrdersA) wKeyA ∧
    (newRecords (preStage wItemsA wOrdersA)).map (fun r => r.ItemPrice) = [-3] ∧
    (newRecords (preStage wItemsA wOrdersA)).map (fun r => r.TotalPrice) = [-3] ∧
    (newRecords (preStage wItemsA wOrdersA)).length = 1 := by
  with_unfolding_all decide

/-! ### C6: where the carried GrossAOV comes from -/

/-- A second scenario row whose item-level feed reports a different `GrossAOV`
for the same `PrimaryKey` and status. -/
def wItem300G20 : ItemRow := { wItem300 with GrossAOV := 20 }

def wItemsDiff : List ItemRow := [wItem500, wItem300G20]

/-- C6 counterexample: two surviving item rows of one `PrimaryKey` group keep
the `GrossAOV` values of their own item-level input rows (10 and 20): the join
with the deduplicated orders copies no monetary field, so the rows of one group
need not share one `GrossAOV`. -/
theorem claim_C6_counterexample :
    (preStage wItemsDiff wOrdersA).map (fun r => r.GrossAOV) = [10, 20] ∧
    ¬ (∀ r1 ∈ preStage wItemsDiff wOrdersA, ∀ r2 ∈ preStage wItemsDiff wOrdersA,
        r1.GrossAOV = r2.GrossAOV) := by
  constructor
  · with_unfolding_all decide
  · with_unfolding_all decide

/-- C6 amended: every surviving item row is its own item-level input row with
only `ItemPrice` divided by 100 and `TotalPrice` recomputed — in particular its
`GrossAOV` (like every other order-level monetary field) comes from the
item-level feed row itself, not from the retained `OrderRecord`; the aggregation
then reads the first row's `GrossAOV` per group, which represents the whole
group only when the item feed is uniform within the group. -/
theorem claim_C6_amended (items : List ItemRow) (orders : List OrderRec) (r : ItemRow)
    (h : r ∈ preStage items orders) :
    ∃ s ∈ items, (s.PrimaryKey, s.OrderStatus) ∈ cleanPairs orders ∧
      r = { s with ItemPrice := s.ItemPrice / 100,
                   TotalPrice := s.ItemPrice / 100 * s.ItemQuantities } ∧
      r.GrossAOV = s.GrossAOV := by
  obtain ⟨s, hs, hpair, hform⟩ := mem_preStage h
  exact ⟨s, hs, hpair, hform, by rw [hform]⟩

theorem claim_C6_witness :
    ∃ s ∈ wItemsA, (s.PrimaryKey, s.OrderStatus) ∈ cleanPairs wOrdersA ∧
      wOut500 = { s with ItemPrice := s.ItemPrice / 100,
                         TotalPrice := s.ItemPrice / 100 * s.ItemQuantities } ∧
      wOut500.GrossAOV = s.GrossAOV :=
  claim_C6_amended wItemsA wOrdersA wOut500 (by with_unfolding_all decide)

/-! ### C9: output ordering under different input stacking orders -/

/-- The final sort key order on rows themselves (date, then time, then
`PrimaryKey`), without the stabilizing input index. -/
def itemKeyLe (a b : ItemRow) : Prop :=
  strLt a.OrderPlacedDate b.OrderPlacedDate ∨
    (a.OrderPlacedDate = b.OrderPlacedDate ∧
      (strLt a.OrderPlacedTime b.OrderPlacedTime ∨
        (a.OrderPlacedTime = b.OrderPlacedTime ∧
          (optStrLt a.PrimaryKey b.PrimaryKey ∨ a.PrimaryKey = b.PrimaryKey))))

theorem itemSortLe_drop {p q : Nat × ItemRow} (h : itemSortLe p q) : itemKeyLe p.2 q.2 := by
  rcases h with h | ⟨e1, h⟩
  · exact Or.inl h
  · rcases h with h | ⟨e2, h⟩
    · exact Or.inr ⟨e1, Or.inl h⟩
    · rcases h with h | ⟨e3, -⟩
      · exact Or.inr ⟨e1, Or.inr ⟨e2, Or.inl h⟩⟩
      · exact Or.inr ⟨e1, Or.inr ⟨e2, Or.inr e3⟩⟩

/-- Two rows with identical sort keys but different product names. -/
def wTie1 : ItemRow := { wBase with ItemQuantities := 1 }

def wTie2 : ItemRow :=
  { wBase with ItemQuantities := 1, ProductName := wBurrito, ProductPLU := wPLU2 }

/-- C9 counterexample: the same set of input rows presented in two stacking
orders (a permutation) yields two *different* output row orders — the final sort
key (date, time, `PrimaryKey`) does not separate distinct items of one order, and
the stable sort preserves the stacking order inside such a tie. -/
theorem claim_C9_counterexample :
    List.Perm [wTie1, wTie2] [wTie2, wTie1] ∧
    reconcileItems [wTie1, wTie2] wOrdersA ≠ reconcileItems [wTie2, wTie1] wOrdersA :=
  ⟨List.Perm.swap wTie2 wTie1 [], by with_unfolding_all decide⟩

/-- C9 amended: the final step really does sort the output by
(`OrderPlacedDate`, `OrderPlacedTime`, `PrimaryKey`) — the output is always
ordered by that key and is a permutation of the balanced item set — but rows
sharing all three key fields keep their stacking order, so directory-listing
nondeterminism can still leak into the relative order of items within one
order. -/
theorem claim_C9_amended (items : List ItemRow) (orders : List OrderRec) :
    (reconcileItems items orders).Sorted itemKeyLe ∧
    List.Perm (reconcileItems items orders) (balanceStage (preStage items orders)) := by
  constructor
  · show List.Pairwise itemKeyLe ((List.insertionSort itemSortLe
        (balanceStage (preStage items orders)).enum).map (fun p => p.2))
    rw [List.pairwise_map]
    have hs := List.sorted_insertionSort itemSortLe (balanceStage (preStage items orders)).enum
    exact hs.imp itemSortLe_drop
  · exact finalSort_perm _
